import Mathlib

/-!
Shallow embedding of the ebay-scraper extraction and retry engine
(src/ebay_sold_itempages.py), together with verified properties of the
embedded definitions.

Machine reals (Python floats holding prices and rates) are modelled as
rationals; Python sets of strings are modelled as lists with membership
checks; the browser world (what each search page and each visited detail
page yields) is passed in explicitly as data.
-/

namespace EbayScraper

/-! ### Python string helpers -/

/-- The whitespace characters recognised by Python `str.strip` and by the
regex class `\s` on ASCII text. -/
def isPySpace (c : Char) : Bool :=
  c = ' ' || c = '\t' || c = '\n' || c = '\r' || c = '\x0b' || c = '\x0c'

/-- `str.strip()` on a character list. -/
def pyStripList (cs : List Char) : List Char :=
  ((cs.dropWhile isPySpace).reverse.dropWhile isPySpace).reverse

/-- Python `str.strip()`. -/
def pyStrip (s : String) : String := ⟨pyStripList s.toList⟩

/-- Python `str.lower()` (ASCII). -/
def pyLower (s : String) : String := ⟨s.toList.map Char.toLower⟩

/-- Python substring test `pat in s` on character lists. -/
def containsSub (pat : List Char) : List Char → Bool
  | [] => pat.isEmpty
  | c :: cs => pat.isPrefixOf (c :: cs) || containsSub pat cs

/-- Python substring test `pat in s`. -/
def strContains (pat s : String) : Bool := containsSub pat.toList s.toList

/-- Helper for Python `str.replace` with an empty pattern. -/
def replaceInterleave (rep : List Char) : List Char → List Char
  | [] => rep
  | c :: cs => rep ++ c :: replaceInterleave rep cs

/-- Python `str.replace`: replace non-overlapping occurrences of the
(non-empty) pattern `p :: ps`, scanning left to right. -/
def replaceAux (p : Char) (ps rep : List Char) : List Char → List Char
  | [] => []
  | c :: cs =>
    if (p :: ps).isPrefixOf (c :: cs) then rep ++ replaceAux p ps rep (cs.drop ps.length)
    else c :: replaceAux p ps rep cs
termination_by cs => cs.length
decreasing_by
  · simp only [List.length_drop, List.length_cons]
    omega
  · simp only [List.length_cons]
    omega

/-- Python `s.replace(pat, rep)`. -/
def pyReplace (s pat rep : String) : String :=
  match pat.toList with
  | [] => ⟨replaceInterleave rep.toList s.toList⟩
  | p :: ps => ⟨replaceAux p ps rep.toList s.toList⟩

/-! ### URL canonicalization (run, lines 609-615)

The code absolutizes the raw candidate URL and then strips the query
string with `re.sub(r"\x3f.*$", "", raw_url)`.  In Python `.` does not
match a newline and `$` also matches just before a trailing newline, so
the faithful model of the substitution is: find the leftmost question
mark whose remaining text (up to the end, or up to a single trailing
newline) is newline-free, and delete from it onwards (keeping the
trailing newline when one was skipped over by `$`). -/

/-- True when the text contains no newline (the region `.*` must cross). -/
def newlineFree (cs : List Char) : Bool := decide ('\n' ∉ cs)

/-- Leftmost match of a question mark followed by newline-free text:
returns the prefix before the match, or `none` when no position matches. -/
def stripCore : List Char → Option (List Char)
  | [] => none
  | c :: cs =>
    if (c == '?') && newlineFree cs then some []
    else (stripCore cs).map (c :: ·)

/-- Whether the text ends with a newline (the position where `$` may also
match). -/
def endsNewline (cs : List Char) : Bool := cs.getLast? == some '\n'

/-- `re.sub` of a question mark followed by line text anchored at `$`. -/
def stripQueryList (cs : List Char) : List Char :=
  if endsNewline cs then
    match stripCore cs.dropLast with
    | some pre => pre ++ ['\n']
    | none => cs
  else
    match stripCore cs with
    | some pre => pre
    | none => cs

/-- Lines 610-613: protocol-relative URLs get `https:`, other non-`http`
URLs are made absolute against the base host. -/
def absolutizeList (cs : List Char) : List Char :=
  if ("//".toList).isPrefixOf cs then "https:".toList ++ cs
  else if !(("http".toList).isPrefixOf cs) then "https://www.ebay.co.uk".toList ++ cs
  else cs

/-- Canonical URL of a raw candidate URL: absolutize, then strip the
query string. -/
def canonicalize (s : String) : String := ⟨stripQueryList (absolutizeList s.toList)⟩

/-! ### Price parsing (_parse_price_to_gbp, lines 34-81)

The regular expressions are hand-compiled.  Every pattern embeds the
number token `[0-9][0-9,]*(?:\.[0-9]\x7b2\x7d)?`; for patterns where the
token is followed by further pattern text, Python backtracks over the
greedy `[0-9,]*` and over the optional decimal part, so the model
enumerates the candidate token matches in exactly that order. -/

/-- `[0-9]` or the thousands separator. -/
def digitOrComma (c : Char) : Bool := c.isDigit || c = ','

/-- Candidate matches of the number token starting at this position with
a leading run of length `k, k-1, ..., 1`, each with the two-decimal
option tried before the bare option (Python greedy order).  Each entry is
the captured group together with the remaining text. -/
def numOptionsAux (cs : List Char) : Nat → List (List Char × List Char)
  | 0 => []
  | k + 1 =>
    let g := cs.take (k + 1)
    let rest := cs.drop (k + 1)
    (match rest with
     | '.' :: d1 :: d2 :: rest2 =>
       if d1.isDigit && d2.isDigit then [(g ++ ['.', d1, d2], rest2)] else []
     | _ => []) ++ [(g, rest)] ++ numOptionsAux cs k

/-- All candidate matches of the number token at this position, in
backtracking order (empty when the position does not start with a digit). -/
def numOptions (cs : List Char) : List (List Char × List Char) :=
  match cs with
  | [] => []
  | c :: _ =>
    if c.isDigit then numOptionsAux cs (cs.takeWhile digitOrComma).length else []

/-- Greedy `\s*`. -/
def skipSpaces (cs : List Char) : List Char := cs.dropWhile isPySpace

/-- Case-insensitive literal match, returning the remaining text. -/
def stripLitCI : List Char → List Char → Option (List Char)
  | [], cs => some cs
  | _ :: _, [] => none
  | l :: ls, c :: cs => if l.toLower = c.toLower then stripLitCI ls cs else none

/-- Match `LIT\s*NUM` at this position, returning the captured group. -/
def matchPrefixPat (lit : List Char) (cs : List Char) : Option (List Char) :=
  match stripLitCI lit cs with
  | none => none
  | some r =>
    match numOptions (skipSpaces r) with
    | (g, _) :: _ => some g
    | [] => none

/-- Match `US\s*\$\s*NUM` at this position. -/
def matchUSDollar (cs : List Char) : Option (List Char) :=
  match stripLitCI "US".toList cs with
  | none => none
  | some r1 =>
    match stripLitCI "$".toList (skipSpaces r1) with
    | none => none
    | some r2 =>
      match numOptions (skipSpaces r2) with
      | (g, _) :: _ => some g
      | [] => none

/-- Match `NUM\s*LIT` at this position, backtracking over the number
token options. -/
def matchSuffixPat (lit : List Char) (cs : List Char) : Option (List Char) :=
  (numOptions cs).findSome? fun gr =>
    match stripLitCI lit (skipSpaces gr.2) with
    | some _ => some gr.1
    | none => none

/-- `re.search`: try the matcher at each position, leftmost first. -/
def reSearch (m : List Char → Option (List Char)) : List Char → Option (List Char)
  | [] => m []
  | c :: rest =>
    match m (c :: rest) with
    | some g => some g
    | none => reSearch m (rest)

/-- The three GBP patterns, first match wins. -/
def gbpSearch (cs : List Char) : Option (List Char) :=
  match reSearch (matchPrefixPat "£".toList) cs with
  | some g => some g
  | none =>
    match reSearch (matchPrefixPat "GBP".toList) cs with
    | some g => some g
    | none => reSearch (matchSuffixPat "GBP".toList) cs

/-- The five USD patterns, first match wins. -/
def usdSearch (cs : List Char) : Option (List Char) :=
  match reSearch matchUSDollar cs with
  | some g => some g
  | none =>
    match reSearch (matchPrefixPat "$".toList) cs with
    | some g => some g
    | none =>
      match reSearch (matchPrefixPat "USD".toList) cs with
      | some g => some g
      | none =>
        match reSearch (matchSuffixPat "USD".toList) cs with
        | some g => some g
        | none => reSearch (matchSuffixPat "US$".toList) cs

/-- The anchored pure-number pattern `^\s*NUM\s*$`. -/
def pureNumberMatch (cs : List Char) : Option (List Char) :=
  (numOptions (skipSpaces cs)).findSome? fun gr =>
    if (skipSpaces gr.2).isEmpty then some gr.1 else none

/-- Decimal value of a digit list. -/
def natOfDigits (ds : List Char) : Nat :=
  ds.foldl (fun n c => 10 * n + (c.toNat - '0'.toNat)) 0

/-- `float(group.replace(",", ""))` on a captured number token. -/
def groupToRat (g : List Char) : ℚ :=
  let g' := g.filter (· != ',')
  let ip := g'.takeWhile (· != '.')
  let rest := g'.dropWhile (· != '.')
  match rest with
  | [] => (natOfDigits ip : ℚ)
  | _ :: frac => (natOfDigits ip : ℚ) + (natOfDigits frac : ℚ) / 100

/-- Floor of a rational, computed from the normalized fraction. -/
def ratFloor (q : ℚ) : ℤ := Int.fdiv q.num q.den

/-- Python `round` to an integer: nearest, ties to even. -/
def roundEven (q : ℚ) : ℤ :=
  let f := ratFloor q
  let r := q - (f : ℚ)
  if r < 1 / 2 then f
  else if 1 / 2 < r then f + 1
  else if f % 2 = 0 then f else f + 1

/-- Python `round(x, 2)`. -/
def round2 (q : ℚ) : ℚ := (roundEven (q * 100) : ℚ) / 100

/-- Two-digit zero-padded decimal text. -/
def pad2 (n : Nat) : String :=
  if n < 10 then "0" ++ toString n else toString n

/-- Python format string `.2f` (prices are non-negative in this model,
but the sign is handled anyway). -/
def format2 (q : ℚ) : String :=
  let n := roundEven (q * 100)
  if n < 0 then "-" ++ toString ((-n).toNat / 100) ++ "." ++ pad2 ((-n).toNat % 100)
  else toString (n.toNat / 100) ++ "." ++ pad2 (n.toNat % 100)

/-- `_parse_price_to_gbp`: GBP patterns, then USD patterns with the fixed
0.78 fallback rate, then a bare number, else nothing. -/
def parse_price_to_gbp (s : String) : Option ℚ :=
  if s = "" then none
  else
    let cleaned := pyStripList s.toList
    match gbpSearch cleaned with
    | some g => some (groupToRat g)
    | none =>
      match usdSearch cleaned with
      | some g => some (round2 (groupToRat g * (39 / 50)))
      | none =>
        match pureNumberMatch cleaned with
        | some g => some (groupToRat g)
        | none => none

/-- `_gbp_to_usd`. -/
def gbp_to_usd (gbp : Option ℚ) (usd_rate : ℚ) : Option ℚ :=
  match gbp with
  | none => none
  | some g => some (round2 (g * usd_rate))

/-! ### Detail-page field extraction (_extract_additional_info, lines 228-297)

Each field walks an ordered selector list; the page is modelled by the
list of texts those selectors yield (`none` for a selector that matches
nothing, raises, or yields a null text). -/

/-- Condition extraction (lines 234-251): the first selector whose text
is non-empty wins, and its text is stripped; no further validation is
performed on it. -/
def extractCondition : List (Option String) → Option String
  | [] => none
  | none :: rest => extractCondition rest
  | some txt :: rest =>
    if txt = "" then extractCondition rest
    else some (pyStrip txt)

/-- Image extraction (lines 272-295): a `src` holding a thumbnail size
token falls through to the next selector; otherwise a low-resolution
`s-l500` token is rewritten to `s-l1600` and the URL is accepted. -/
def extractImage : List (Option String) → Option String
  | [] => none
  | none :: rest => extractImage rest
  | some src :: rest =>
    if src = "" then extractImage rest
    else if strContains "s-l64" src || strContains "s-l50" src then extractImage rest
    else if strContains "s-l500" src then some (pyReplace src "s-l500" "s-l1600")
    else some src

/-! ### Data model of a single run (run, lines 530-714)

A run is driven by the browser world: for each requested search page, the
list of candidates the listing-page extraction yields, each paired with
what its detail-page visit would produce.  Playwright failure modes are
explicit: `newPageFatal` models an exception at `context.new_page()`
(outside the per-item try, hence run-fatal), `navOk = false` a navigation
failure after retries, and `throws` an exception inside the per-item try
(caught, candidate skipped). -/

/-- A candidate from the search-page extraction (the JS object built by
`_extract_items_from_search_page`: missing texts are empty strings, a
missing image is null). -/
structure Candidate where
  title : String
  url : String
  image : Option String
  price_text : String
  shipping_text : String
  condition : String
deriving DecidableEq, Repr

/-- What visiting a candidate detail page yields. -/
structure DetailOutcome where
  newPageFatal : Option String
  navOk : Bool
  throws : Bool
  price_gbp : Option ℚ
  sold_info : Option String
  condition : Option String
  shipping : Option String
  image : Option String
deriving DecidableEq, Repr

/-- One search page of the world. -/
abbrev Page := List (Candidate × DetailOutcome)

/-- The `SoldItem` dataclass (lines 17-27). -/
structure SoldItem where
  title : String
  price_text : String
  price_gbp : Option ℚ
  price_usd : Option ℚ
  shipping_text : Option String
  condition : Option String
  sold_info : Option String
  url : String
  image : Option String
deriving DecidableEq, Repr

/-- The mutable state of a run: collected items, the seen-URL set (a list
with membership checks) and the log of canonical URLs whose detail page
was visited. -/
structure RState where
  items : List SoldItem
  seen : List String
  visits : List String
deriving DecidableEq, Repr

/-- The dictionary `run` and `run_with_retries` return (time fields
omitted). -/
structure RunResult where
  success : Bool
  error : Option String
  count : Nat
  items : List SoldItem
deriving DecidableEq, Repr

/-- Python truthiness of an optional string. -/
def optFalsy : Option String → Bool
  | none => true
  | some s => s = ""

/-- Lines 639-641: skip when a condition was read and it clearly does not
contain "new" (case-insensitive). -/
def skipNonNew : Option String → Bool
  | none => false
  | some c => (c != "") && !(strContains "new" (pyLower c))

/-- Lines 643-675: merge detail-page fields with search-card fallbacks
and build the `SoldItem`. -/
def mkSoldItem (usdRate : ℚ) (clean : String) (cd : Candidate × DetailOutcome) : SoldItem :=
  let s_ptext := cd.1.price_text
  let price :=
    match cd.2.price_gbp with
    | some p => some p
    | none => if s_ptext != "" then parse_price_to_gbp s_ptext else none
  let cond :=
    if optFalsy cd.2.condition && (cd.1.condition != "") then some cd.1.condition
    else cd.2.condition
  let ship :=
    if optFalsy cd.2.shipping && (cd.1.shipping_text != "") then some cd.1.shipping_text
    else cd.2.shipping
  let img :=
    if optFalsy cd.2.image && !(optFalsy cd.1.image) then cd.1.image
    else cd.2.image
  let ptext :=
    match price with
    | some p => "£" ++ format2 p
    | none => if s_ptext != "" then s_ptext else "N/A"
  { title := cd.1.title
    price_text := ptext
    price_gbp := price
    price_usd := gbp_to_usd price usdRate
    shipping_text := ship
    condition := cond
    sold_info := cd.2.sold_info
    url := clean
    image := img }

/-- Process one candidate (lines 609-682).  Returns the fatal message and
state on a run-fatal exception, otherwise the new state and whether the
detail page was visited. -/
def stepCandidate (usdRate : ℚ) (st : RState) (cd : Candidate × DetailOutcome) :
    Sum (String × RState) (RState × Bool) :=
  let clean := canonicalize cd.1.url
  if clean ∈ st.seen then .inr (st, false)
  else
    let st1 : RState := ⟨st.items, clean :: st.seen, st.visits⟩
    match cd.2.newPageFatal with
    | some m => .inl (m, st1)
    | none =>
      let st2 : RState := ⟨st1.items, st1.seen, st1.visits ++ [clean]⟩
      if !cd.2.navOk then .inr (st2, true)
      else if cd.2.throws then .inr (st2, true)
      else if skipNonNew cd.2.condition then .inr (st2, true)
      else .inr (⟨st2.items ++ [mkSoldItem usdRate clean cd], st2.seen, st2.visits⟩, true)

/-- The per-page candidate loop (lines 605-682), with the cap break at
the loop head; also counts the detail-page visits this page performed. -/
def runCands (usdRate : ℚ) (pp : Nat) (st : RState) :
    List (Candidate × DetailOutcome) → Sum (String × RState) RState × Nat
  | [] => (.inr st, 0)
  | cd :: rest =>
    if pp ≤ st.items.length then (.inr st, 0)
    else
      match stepCandidate usdRate st cd with
      | .inl f => (.inl f, 0)
      | .inr (st', visited) =>
        let r := runCands usdRate pp st' rest
        (r.1, (if visited then 1 else 0) + r.2)

/-- The page loop (lines 567-684): stop once the per-run cap is reached,
slice each page to at most `min 5 (per_page - collected)` candidates. -/
def runPages (usdRate : ℚ) (pp : Nat) (st : RState) :
    List Page → Sum (String × RState) RState × List Nat
  | [] => (.inr st, [])
  | pg :: rest =>
    if pp ≤ st.items.length then (.inr st, [])
    else
      match runCands usdRate pp st (pg.take (min 5 (pp - st.items.length))) with
      | (.inl f, n) => (.inl f, [n])
      | (.inr st', n) =>
        let r := runPages usdRate pp st' rest
        (r.1, n :: r.2)

/-- Run core: the page loop from the empty state. -/
def runCore (usdRate : ℚ) (pp : Nat) (world : List Page) :
    Sum (String × RState) RState × List Nat :=
  runPages usdRate pp ⟨[], [], []⟩ world

/-- The normal exit (lines 703-714). -/
def finishNormal (items : List SoldItem) : RunResult :=
  let success := decide (0 < items.length)
  { success := success
    error := if success then none else some "No items collected"
    count := items.length
    items := items }

/-- The top-level fatal exit (lines 689-701): partial items are returned. -/
def finishFatal (msg : String) (items : List SoldItem) : RunResult :=
  { success := false
    error := some ("Fatal error: " ++ msg)
    count := items.length
    items := items }

/-- `run` for a scrape (non-smoke) attempt against the given world. -/
def runModel (usdRate : ℚ) (pp : Nat) (world : List Page) : RunResult :=
  match (runCore usdRate pp world).1 with
  | .inl (m, st) => finishFatal m st.items
  | .inr st => finishNormal st.items

/-- Final run state without the exit dispatch. -/
def finalState (usdRate : ℚ) (pp : Nat) (world : List Page) : RState :=
  match (runCore usdRate pp world).1 with
  | .inl (_, st) => st
  | .inr st => st

/-- Visit counts of the processed pages. -/
def visitCounts (usdRate : ℚ) (pp : Nat) (world : List Page) : List Nat :=
  (runCore usdRate pp world).2

/-! ### Retry orchestration (run_with_retries, lines 471-523)

One attempt either raises or returns a result.  The orchestrator is
modelled as a pure function from the attempt-indexed outcomes to the
final result, the ordered list of back-off sleep durations it performs,
and the number of attempts it made. -/

/-- Outcome of calling the attempt function once. -/
inductive Attempt where
  | throws (msg : String)
  | returns (r : RunResult)
deriving DecidableEq, Repr

/-- `last_error = result.get("error") or "Unknown error"` (line 501). -/
def normErr : Option String → String
  | none => "Unknown error"
  | some e => if e = "" then "Unknown error" else e

/-- The error text recorded for a failed attempt. -/
def failMsg : Attempt → String
  | .throws m => m
  | .returns r => normErr r.error

/-- The terminal result after exhausting all attempts (lines 514-523). -/
def exhaustResult (maxR : Nat) (lastErr : Option String) : RunResult :=
  { success := false
    error := some ("All " ++ toString maxR ++ " attempts failed. Last error: " ++
      (match lastErr with | none => "None" | some s => s))
    count := 0
    items := [] }

/-- The retry loop body from attempt index `attempt` with `rem` loop
iterations left. -/
def rwrAux (f : Nat → Attempt) (maxR : Nat) : Nat → Nat → Option String →
    RunResult × List Nat × Nat
  | 0, _, le0 => (exhaustResult maxR le0, [], 0)
  | rem + 1, attempt, _ =>
    let afterFail := fun (le : Option String) =>
      if attempt < maxR then
        let r := rwrAux f maxR rem (attempt + 1) le
        (r.1, 2 ^ (attempt - 1) :: r.2.1, r.2.2 + 1)
      else (exhaustResult maxR le, [], 1)
    match f attempt with
    | .returns r => if r.success then (r, [], 1) else afterFail (some (normErr r.error))
    | .throws m => afterFail (some m)

/-- `run_with_retries`: result, sleeps performed, attempts made. -/
def run_with_retries (f : Nat → Attempt) (maxR : Nat) : RunResult × List Nat × Nat :=
  rwrAux f maxR maxR 1 none

/-! ### Auxiliary definitions for the verification: exit-state projection,
the run invariant, the failure predicate, and concrete worlds used in
witnesses and counterexamples. -/

/-- An attempt that raised or reported a logical failure. -/
def isFailure : Attempt → Prop
  | .throws _ => True
  | .returns r => r.success = false

/-- The success result used in the C4 witness. -/
def rOK : RunResult := { success := true, error := none, count := 0, items := [] }

/-- A concrete attempt function: raises on attempt 1, succeeds on
attempt 2. -/
def fC4 : Nat → Attempt := fun i => if i = 2 then .returns rOK else .throws "nav timeout"

/-- The candidate and page outcome used in the C10 witness: the detail
page shows the condition "Used". -/
def cdUsed : Candidate × DetailOutcome :=
  ({ title := "Gadget", url := "https://www.ebay.co.uk/itm/7?x=1", image := none,
     price_text := "", shipping_text := "", condition := "" },
   { newPageFatal := none, navOk := true, throws := false, price_gbp := some 5,
     sold_info := none, condition := some "Used", shipping := none, image := none })

/-- The state carried out of either exit of the loop. -/
def resState : Sum (String × RState) RState → RState
  | .inl (_, st) => st
  | .inr st => st

/-- Invariant of the run state: item URLs and visited URLs are recorded
in the seen set and neither carries a duplicate. -/
def RInv (st : RState) : Prop :=
  (∀ u ∈ st.items.map SoldItem.url, u ∈ st.seen) ∧
  (∀ u ∈ st.visits, u ∈ st.seen) ∧
  (st.items.map SoldItem.url).Nodup ∧
  st.visits.Nodup

/-- A fresh well-behaved candidate whose detail page shows "New" and a
price of 2. -/
def mkCand (u : String) : Candidate × DetailOutcome :=
  ({ title := "T", url := u, image := none, price_text := "", shipping_text := "",
     condition := "" },
   { newPageFatal := none, navOk := true, throws := false, price_gbp := some 2,
     sold_info := none, condition := some "New", shipping := none, image := none })

/-- A candidate whose `new_page` call raises (run-fatal). -/
def cdFatal : Candidate × DetailOutcome :=
  ({ title := "B", url := "https://www.ebay.co.uk/itm/202", image := none,
     price_text := "", shipping_text := "", condition := "" },
   { newPageFatal := some "TargetClosedError", navOk := true, throws := false,
     price_gbp := none, sold_info := none, condition := none, shipping := none,
     image := none })

/-- One page: a good candidate, then a run-fatal candidate. -/
def worldC2 : List Page := [[mkCand "https://www.ebay.co.uk/itm/201", cdFatal]]

/-- One page with a single good candidate (a normal successful exit). -/
def worldOne : List Page := [[mkCand "https://www.ebay.co.uk/itm/301"]]

/-- The run state worldOne ends in. -/
def stOne : RState :=
  ⟨[mkSoldItem 1 (canonicalize "https://www.ebay.co.uk/itm/301")
      (mkCand "https://www.ebay.co.uk/itm/301")],
   [canonicalize "https://www.ebay.co.uk/itm/301"],
   [canonicalize "https://www.ebay.co.uk/itm/301"]⟩

/-- One page yielding 8 candidates while per_page is 5. -/
def world8 : List Page :=
  [[mkCand "https://www.ebay.co.uk/itm/1", mkCand "https://www.ebay.co.uk/itm/2",
    mkCand "https://www.ebay.co.uk/itm/3", mkCand "https://www.ebay.co.uk/itm/4",
    mkCand "https://www.ebay.co.uk/itm/5", mkCand "https://www.ebay.co.uk/itm/6",
    mkCand "https://www.ebay.co.uk/itm/7", mkCand "https://www.ebay.co.uk/itm/8"]]

/-- A state that has already seen a canonical URL, and a candidate whose
URL canonicalizes to it. -/
def stSeen : RState := ⟨[], ["https://www.ebay.co.uk/itm/1"], []⟩

/-- A candidate URL differing only by query string from the seen one. -/
def cdDup : Candidate × DetailOutcome := mkCand "https://www.ebay.co.uk/itm/1?hash=9"

/-! ### Helper lemmas

The Batteries rational operations are irreducible by default; they are
unsealed so that concrete price arithmetic can be evaluated by `decide`. -/

unseal Rat.mul Rat.add Rat.inv Rat.sub

/-! ### List helper lemmas -/

theorem takeWhile_all {p : Char → Bool} :
    ∀ {cs : List Char}, (∀ a ∈ cs, p a = true) → cs.takeWhile p = cs := by
  intro cs h
  induction cs with
  | nil => rfl
  | cons c cs ih =>
    have hc : p c = true := h c (List.mem_cons_self c cs)
    rw [List.takeWhile_cons, hc]
    simp [ih fun a ha => h a (List.mem_cons_of_mem c ha)]

theorem mem_takeWhile_pred {p : Char → Bool} :
    ∀ {cs : List Char} {a : Char}, a ∈ cs.takeWhile p → p a = true := by
  intro cs
  induction cs with
  | nil => intro a h; simp [List.takeWhile] at h
  | cons c cs ih =>
    intro a h
    rw [List.takeWhile_cons] at h
    by_cases hc : p c = true
    · rw [hc] at h
      simp only [if_true] at h
      rcases List.mem_cons.mp h with h | h
      · exact h ▸ hc
      · exact ih h
    · rw [Bool.not_eq_true] at hc
      rw [hc] at h
      simp at h

theorem mem_takeWhile_mem {p : Char → Bool} :
    ∀ {cs : List Char} {a : Char}, a ∈ cs.takeWhile p → a ∈ cs := by
  intro cs
  induction cs with
  | nil => intro a h; simp [List.takeWhile] at h
  | cons c cs ih =>
    intro a h
    rw [List.takeWhile_cons] at h
    by_cases hc : p c = true
    · rw [hc] at h
      simp only [if_true] at h
      rcases List.mem_cons.mp h with h | h
      · exact h ▸ List.mem_cons_self c cs
      · exact List.mem_cons_of_mem c (ih h)
    · rw [Bool.not_eq_true] at hc
      rw [hc] at h
      simp at h

theorem takeWhile_idem {p : Char → Bool} (cs : List Char) :
    (cs.takeWhile p).takeWhile p = cs.takeWhile p :=
  takeWhile_all fun _ ha => mem_takeWhile_pred ha

theorem takeWhile_append_all {p : Char → Bool} {xs : List Char} (ys : List Char)
    (h : ∀ a ∈ xs, p a = true) :
    (xs ++ ys).takeWhile p = xs ++ ys.takeWhile p := by
  induction xs with
  | nil => rfl
  | cons x xs ih =>
    have hx : p x = true := h x (List.mem_cons_self x xs)
    rw [List.cons_append, List.takeWhile_cons, hx]
    simp only [if_true, ih fun a ha => h a (List.mem_cons_of_mem x ha), List.cons_append]

theorem isPrefixOf_exists :
    ∀ (p l : List Char), p.isPrefixOf l = true → ∃ t, l = p ++ t := by
  intro p
  induction p with
  | nil => intro l _; exact ⟨l, rfl⟩
  | cons a as ih =>
    intro l h
    cases l with
    | nil => simp [List.isPrefixOf] at h
    | cons b bs =>
      simp only [List.isPrefixOf, Bool.and_eq_true, beq_iff_eq] at h
      obtain ⟨t, ht⟩ := ih bs h.2
      exact ⟨t, by rw [h.1, ht]; rfl⟩

theorem isPrefixOf_append (p t : List Char) : p.isPrefixOf (p ++ t) = true := by
  induction p with
  | nil => simp [List.isPrefixOf]
  | cons a as ih => simp [List.isPrefixOf, ih]

theorem isPrefixOf_append_left :
    ∀ (p q l : List Char), (p ++ q).isPrefixOf l = true → p.isPrefixOf l = true := by
  intro p
  induction p with
  | nil => intro q l _; simp [List.isPrefixOf]
  | cons a as ih =>
    intro q l h
    cases l with
    | nil => simp [List.isPrefixOf] at h
    | cons b bs =>
      simp only [List.cons_append, List.isPrefixOf, Bool.and_eq_true] at h ⊢
      exact ⟨h.1, ih q bs h.2⟩

/-! ### Canonicalization lemmas -/

theorem newlineFree_eq_true {cs : List Char} (h : '\n' ∉ cs) : newlineFree cs = true := by
  simp [newlineFree, h]

theorem endsNewline_eq_false {cs : List Char} (h : '\n' ∉ cs) : endsNewline cs = false := by
  unfold endsNewline
  cases hl : cs.getLast? with
  | none => rfl
  | some c =>
    have hc : c ∈ cs := List.mem_of_getLast?_eq_some hl
    have hcn : c ≠ '\n' := fun e => h (e ▸ hc)
    simp [hcn]

theorem stripCore_eq_of_no_newline {cs : List Char} (h : '\n' ∉ cs) :
    stripCore cs = if '?' ∈ cs then some (cs.takeWhile (· != '?')) else none := by
  induction cs with
  | nil => rfl
  | cons c cs ih =>
    have hcs : '\n' ∉ cs := fun m => h (List.mem_cons_of_mem c m)
    have hnf : newlineFree cs = true := newlineFree_eq_true hcs
    by_cases hq : c = '?'
    · subst hq
      simp [stripCore, hnf, List.takeWhile_cons]
    · have hb : (c == '?') = false := by simp [hq]
      have hstep : stripCore (c :: cs) = (stripCore cs).map (c :: ·) := by
        simp [stripCore, hb]
      rw [hstep, ih hcs]
      by_cases hm : '?' ∈ cs
      · rw [if_pos hm, if_pos (List.mem_cons_of_mem c hm)]
        have hne : (c != '?') = true := by simp [hq]
        simp [List.takeWhile_cons, hne]
      · rw [if_neg hm, if_neg ?_]
        · rfl
        · intro hx
          rcases List.mem_cons.mp hx with e | hx
          · exact hq e.symm
          · exact hm hx

theorem stripQueryList_no_newline {cs : List Char} (h : '\n' ∉ cs) :
    stripQueryList cs = cs.takeWhile (· != '?') := by
  unfold stripQueryList
  rw [endsNewline_eq_false h]
  simp only [Bool.false_eq_true, if_false]
  rw [stripCore_eq_of_no_newline h]
  by_cases hm : '?' ∈ cs
  · simp [hm]
  · simp only [hm, if_false]
    rw [takeWhile_all]
    intro a ha
    have : a ≠ '?' := fun e => hm (e ▸ ha)
    simp [this]

theorem absolutize_http (cs : List Char) :
    ∃ t, absolutizeList cs = 'h' :: 't' :: 't' :: 'p' :: t := by
  unfold absolutizeList
  by_cases h1 : ("//".toList).isPrefixOf cs = true
  · simp only [h1, if_true]
    exact ⟨'s' :: ':' :: cs, rfl⟩
  · by_cases h2 : ("http".toList).isPrefixOf cs = true
    · obtain ⟨t, ht⟩ := isPrefixOf_exists _ _ h2
      simp only [h1, if_false, h2, Bool.not_true, Bool.false_eq_true]
      exact ⟨t, by rw [ht]; rfl⟩
    · rw [Bool.not_eq_true] at h2
      simp only [h1, if_false, h2, Bool.not_false, if_true]
      exact ⟨'s' :: ':' :: '/' :: '/' :: ("www.ebay.co.uk".toList ++ cs), by simp⟩

theorem isPrefixOf_cons_ne {a b : Char} {as bs : List Char} (h : a ≠ b) :
    (a :: as).isPrefixOf (b :: bs) = false := by
  simp [List.isPrefixOf, h]

theorem absolutize_of_http {cs : List Char}
    (h1 : ("//".toList).isPrefixOf cs = false)
    (h2 : ("http".toList).isPrefixOf cs = true) :
    absolutizeList cs = cs := by
  unfold absolutizeList
  rw [h1, h2]
  simp

theorem absolutize_no_newline {cs : List Char} (h : '\n' ∉ cs) :
    '\n' ∉ absolutizeList cs := by
  unfold absolutizeList
  intro hmem
  by_cases h1 : ("//".toList).isPrefixOf cs = true
  · simp only [h1, if_true] at hmem
    rcases List.mem_append.mp hmem with hm | hm
    · revert hm; decide
    · exact h hm
  · by_cases h2 : ("http".toList).isPrefixOf cs = true
    · simp only [h1, if_false, h2, Bool.not_true, Bool.false_eq_true] at hmem
      exact h hmem
    · rw [Bool.not_eq_true] at h2
      simp only [h1, if_false, h2, Bool.not_false, if_true] at hmem
      rcases List.mem_append.mp hmem with hm | hm
      · revert hm; decide
      · exact h hm

/-- Claim C7: URL canonicalization (absolutize against the base host,
then strip the query string) is idempotent on URLs (strings without a raw
newline), its output contains no query string, and its output starts with
the absolute scheme prefix `http`. -/
theorem C7_canonicalize_idempotent (u : String) (hn : '\n' ∉ u.toList) :
    canonicalize (canonicalize u) = canonicalize u ∧
    '?' ∉ (canonicalize u).toList ∧
    ("http".toList).isPrefixOf (canonicalize u).toList = true := by
  have hA : '\n' ∉ absolutizeList u.toList := absolutize_no_newline hn
  have hclist : (canonicalize u).toList =
      (absolutizeList u.toList).takeWhile (· != '?') :=
    stripQueryList_no_newline hA
  obtain ⟨t, ht⟩ := absolutize_http u.toList
  have hchttp : ∃ r, (absolutizeList u.toList).takeWhile (· != '?') =
      'h' :: 't' :: 't' :: 'p' :: r := by
    rw [ht]
    rw [show ('h' :: 't' :: 't' :: 'p' :: t) = ['h', 't', 't', 'p'] ++ t from rfl]
    rw [takeWhile_append_all t (by decide)]
    exact ⟨t.takeWhile (· != '?'), rfl⟩
  obtain ⟨r, hr⟩ := hchttp
  have hcn : '\n' ∉ (absolutizeList u.toList).takeWhile (· != '?') :=
    fun m => hA (mem_takeWhile_mem m)
  have hcq : '?' ∉ (absolutizeList u.toList).takeWhile (· != '?') := by
    intro m
    have hp := mem_takeWhile_pred m
    simp at hp
  have habs : absolutizeList ((absolutizeList u.toList).takeWhile (· != '?')) =
      (absolutizeList u.toList).takeWhile (· != '?') := by
    have h1 : ("//".toList).isPrefixOf
        ((absolutizeList u.toList).takeWhile (· != '?')) = false := by
      rw [hr]; exact isPrefixOf_cons_ne (by decide)
    have h2 : ("http".toList).isPrefixOf
        ((absolutizeList u.toList).takeWhile (· != '?')) = true := by
      rw [hr]
      exact isPrefixOf_append ['h', 't', 't', 'p'] r
    exact absolutize_of_http h1 h2
  refine ⟨?_, ?_, ?_⟩
  · show String.mk (stripQueryList (absolutizeList (canonicalize u).toList)) =
      canonicalize u
    rw [hclist, habs, stripQueryList_no_newline hcn, takeWhile_idem]
    exact congrArg String.mk (stripQueryList_no_newline hA).symm
  · rw [hclist]
    exact hcq
  · rw [hclist, hr]
    exact isPrefixOf_append ['h', 't', 't', 'p'] r

/-- Claim C3: `_parse_price_to_gbp` tries the GBP patterns first, then
the USD patterns converted with the fixed approximate rate 0.78, then a
bare numeric token, and returns nothing otherwise; in particular parsing
"£12.50" yields exactly 12.50 and parsing "$10.00" yields
round(10.00 × 0.78, 2) = 7.80. -/
theorem C3_parse_price_tiers (s : String) (hs : s ≠ "") :
    parse_price_to_gbp "£12.50" = some (25 / 2) ∧
    parse_price_to_gbp "$10.00" = some (round2 (10 * (39 / 50))) ∧
    parse_price_to_gbp "$10.00" = some (39 / 5) ∧
    (∀ g, gbpSearch (pyStripList s.toList) = some g →
      parse_price_to_gbp s = some (groupToRat g)) ∧
    (gbpSearch (pyStripList s.toList) = none →
      ∀ g, usdSearch (pyStripList s.toList) = some g →
        parse_price_to_gbp s = some (round2 (groupToRat g * (39 / 50)))) ∧
    (gbpSearch (pyStripList s.toList) = none →
      usdSearch (pyStripList s.toList) = none →
      parse_price_to_gbp s =
        (pureNumberMatch (pyStripList s.toList)).map groupToRat) := by
  refine ⟨by decide, by decide, by decide, ?_, ?_, ?_⟩
  · intro g hg
    simp only [String.toList] at hg
    simp [parse_price_to_gbp, hs, hg]
  · intro h0 g hg
    simp only [String.toList] at h0 hg
    simp [parse_price_to_gbp, hs, h0, hg]
  · intro h0 h1
    simp only [String.toList] at h0 h1
    cases hp : pureNumberMatch (pyStripList s.data) with
    | none => simp [parse_price_to_gbp, hs, h0, h1, hp]
    | some g => simp [parse_price_to_gbp, hs, h0, h1, hp]

/-- Witness for C3: the two concrete evaluations, plus the GBP tier taken
at a concrete input where the GBP pattern matches. -/
theorem C3_witness :
    parse_price_to_gbp "£12.50" = some (25 / 2) ∧
    parse_price_to_gbp "$10.00" = some (39 / 5) ∧
    parse_price_to_gbp "£3.20" = some (groupToRat "3.20".toList) :=
  ⟨(C3_parse_price_tiers "£3.20" (by decide)).1,
   (C3_parse_price_tiers "£3.20" (by decide)).2.2.1,
   (C3_parse_price_tiers "£3.20" (by decide)).2.2.2.1 "3.20".toList (by decide)⟩

/-! ### Retry orchestration lemmas -/

theorem sleeps_cons (attempt k : Nat) (h1 : 1 ≤ attempt) (hlt : attempt < k) :
    2 ^ (attempt - 1) :: (List.range (k - (attempt + 1))).map (fun j => 2 ^ (attempt + j)) =
      (List.range (k - attempt)).map (fun j => 2 ^ (attempt - 1 + j)) := by
  have hk : k - attempt = (k - (attempt + 1)) + 1 := by omega
  rw [hk, List.range_succ_eq_map, List.map_cons, List.map_map]
  refine congrArg₂ List.cons (by rw [Nat.add_zero]) ?_
  refine List.map_congr_left fun j _ => ?_
  simp only [Function.comp_apply]
  congr 1
  omega

theorem rwrAux_success (f : Nat → Attempt) (maxR k : Nat) (r : RunResult)
    (hkm : k ≤ maxR)
    (hfail : ∀ i, 1 ≤ i → i < k → isFailure (f i))
    (hsucc : f k = .returns r) (hr : r.success = true) :
    ∀ rem attempt le, 1 ≤ attempt → attempt ≤ k → rem + attempt = maxR + 1 →
      rwrAux f maxR rem attempt le =
        (r, (List.range (k - attempt)).map (fun j => 2 ^ (attempt - 1 + j)),
         k + 1 - attempt) := by
  intro rem
  induction rem with
  | zero =>
    intro attempt le h1 h2 h3
    omega
  | succ rem ih =>
    intro attempt le h1 h2 h3
    by_cases hak : attempt = k
    · subst hak
      rw [rwrAux]
      simp only [hsucc, hr, if_true]
      have hz : attempt - attempt = 0 := by omega
      have ho : attempt + 1 - attempt = 1 := by omega
      rw [hz, ho]
      rfl
    · have hlt : attempt < k := lt_of_le_of_ne h2 hak
      have haM : attempt < maxR := lt_of_lt_of_le hlt hkm
      have hfa : isFailure (f attempt) := hfail attempt h1 hlt
      cases hf : f attempt with
      | throws m =>
        rw [rwrAux]
        simp only [hf, haM, if_true]
        rw [ih (attempt + 1) (some m) (by omega) (by omega) (by omega)]
        dsimp only
        refine congrArg₂ Prod.mk rfl (congrArg₂ Prod.mk ?_ (by omega))
        have hsimp : (fun j => 2 ^ (attempt + 1 - 1 + j)) = fun j => 2 ^ (attempt + j) := by
          funext j
          rw [Nat.add_sub_cancel]
        rw [hsimp]
        exact sleeps_cons attempt k h1 hlt
      | returns rr =>
        have hrr : rr.success = false := by rw [hf] at hfa; exact hfa
        rw [rwrAux]
        simp only [hf, hrr, Bool.false_eq_true, if_false, haM, if_true]
        rw [ih (attempt + 1) (some (normErr rr.error)) (by omega) (by omega) (by omega)]
        dsimp only
        refine congrArg₂ Prod.mk rfl (congrArg₂ Prod.mk ?_ (by omega))
        have hsimp : (fun j => 2 ^ (attempt + 1 - 1 + j)) = fun j => 2 ^ (attempt + j) := by
          funext j
          rw [Nat.add_sub_cancel]
        rw [hsimp]
        exact sleeps_cons attempt k h1 hlt

theorem rwrAux_exhaust (f : Nat → Attempt) (maxR : Nat)
    (hfail : ∀ i, 1 ≤ i → i ≤ maxR → isFailure (f i)) :
    ∀ rem attempt le, 1 ≤ attempt → attempt ≤ maxR → rem + attempt = maxR + 1 →
      rwrAux f maxR rem attempt le =
        (exhaustResult maxR (some (failMsg (f maxR))),
         (List.range (maxR - attempt)).map (fun j => 2 ^ (attempt - 1 + j)),
         maxR + 1 - attempt) := by
  intro rem
  induction rem with
  | zero =>
    intro attempt le h1 h2 h3
    omega
  | succ rem ih =>
    intro attempt le h1 h2 h3
    have hfa : isFailure (f attempt) := hfail attempt h1 h2
    by_cases ham : attempt < maxR
    · cases hf : f attempt with
      | throws m =>
        rw [rwrAux]
        simp only [hf, ham, if_true]
        rw [ih (attempt + 1) (some m) (by omega) (by omega) (by omega)]
        dsimp only
        refine congrArg₂ Prod.mk rfl (congrArg₂ Prod.mk ?_ (by omega))
        have hsimp : (fun j => 2 ^ (attempt + 1 - 1 + j)) = fun j => 2 ^ (attempt + j) := by
          funext j
          rw [Nat.add_sub_cancel]
        rw [hsimp]
        exact sleeps_cons attempt maxR h1 ham
      | returns rr =>
        have hrr : rr.success = false := by rw [hf] at hfa; exact hfa
        rw [rwrAux]
        simp only [hf, hrr, Bool.false_eq_true, if_false, ham, if_true]
        rw [ih (attempt + 1) (some (normErr rr.error)) (by omega) (by omega) (by omega)]
        dsimp only
        refine congrArg₂ Prod.mk rfl (congrArg₂ Prod.mk ?_ (by omega))
        have hsimp : (fun j => 2 ^ (attempt + 1 - 1 + j)) = fun j => 2 ^ (attempt + j) := by
          funext j
          rw [Nat.add_sub_cancel]
        rw [hsimp]
        exact sleeps_cons attempt maxR h1 ham
    · have haeq : attempt = maxR := by omega
      subst haeq
      cases hf : f attempt with
      | throws m =>
        rw [rwrAux]
        simp only [hf, lt_irrefl, if_false]
        have hz : attempt - attempt = 0 := by omega
        have ho : attempt + 1 - attempt = 1 := by omega
        rw [hz, ho]
        simp [failMsg, hf]
      | returns rr =>
        have hrr : rr.success = false := by rw [hf] at hfa; exact hfa
        rw [rwrAux]
        simp only [hf, hrr, Bool.false_eq_true, if_false, lt_irrefl]
        have hz : attempt - attempt = 0 := by omega
        have ho : attempt + 1 - attempt = 1 := by omega
        rw [hz, ho]
        simp [failMsg, hf]

/-- Claim C4: when attempts 1..k-1 fail (raise or report logical
failure) and attempt k succeeds, run_with_retries returns that success
result after exactly k attempts and sleeps k-1 times with durations
2^0, ..., 2^(k-2); after exhausting all attempts it returns success=false
with an error summarizing the last failure and zero items. -/
theorem C4_retry_backoff (f : Nat → Attempt) (maxR k : Nat) (r : RunResult) :
    (1 ≤ k → k ≤ maxR → (∀ i, 1 ≤ i → i < k → isFailure (f i)) →
      f k = .returns r → r.success = true →
      run_with_retries f maxR =
        (r, (List.range (k - 1)).map (fun j => 2 ^ j), k)) ∧
    (1 ≤ maxR → (∀ i, 1 ≤ i → i ≤ maxR → isFailure (f i)) →
      run_with_retries f maxR =
        (exhaustResult maxR (some (failMsg (f maxR))),
         (List.range (maxR - 1)).map (fun j => 2 ^ j), maxR) ∧
      (run_with_retries f maxR).1.success = false ∧
      (run_with_retries f maxR).1.count = 0 ∧
      (run_with_retries f maxR).1.items = []) := by
  constructor
  · intro hk1 hkm hfail hsucc hr
    have h := rwrAux_success f maxR k r hkm hfail hsucc hr maxR 1 none
      (by omega) hk1 (by omega)
    rw [run_with_retries, h]
    refine congrArg₂ Prod.mk rfl (congrArg₂ Prod.mk ?_ (by omega))
    refine List.map_congr_left fun j _ => ?_
    congr 1
    omega
  · intro hm1 hfail
    have h := rwrAux_exhaust f maxR hfail maxR 1 none (by omega) hm1 (by omega)
    have heq : run_with_retries f maxR =
        (exhaustResult maxR (some (failMsg (f maxR))),
         (List.range (maxR - 1)).map (fun j => 2 ^ j), maxR) := by
      rw [run_with_retries, h]
      refine congrArg₂ Prod.mk rfl (congrArg₂ Prod.mk ?_ (by omega))
      refine List.map_congr_left fun j _ => ?_
      congr 1
      omega
    refine ⟨heq, ?_, ?_, ?_⟩ <;> rw [heq] <;> rfl

/-- Witness for C4: with three allowed attempts, failure then success
gives exactly two attempts and one back-off sleep of one unit. -/
theorem C4_witness : run_with_retries fC4 3 = (rOK, [1], 2) := by
  have h := (C4_retry_backoff fC4 3 2 rOK).1 (by omega) (by omega)
    (fun i h1 h2 => by
      have hi : i = 1 := by omega
      subst hi
      exact trivial)
    rfl rfl
  exact h.trans (by decide)

/-- Counterexample to C1: a clean-but-empty attempt result (success
false with error "No items collected") is retried, not terminal: with
two allowed attempts the orchestrator sleeps once, runs twice, and
returns the exhaustion result rather than the empty result itself. -/
theorem C1_counterexample :
    (run_with_retries (fun _ => .returns (finishNormal [])) 2).2.1 = [1] ∧
    (run_with_retries (fun _ => .returns (finishNormal [])) 2).2.2 = 2 ∧
    (run_with_retries (fun _ => .returns (finishNormal [])) 2).1 ≠ finishNormal [] := by
  decide

/-- Claim C1 amended: run_with_retries treats a clean-but-empty run
(success=false because zero items were collected) like any other logical
failure: while attempts remain it sleeps with exponential back-off and
retries, and only after max_retries attempts does it return a terminal
failure result. -/
theorem C1_amended_clean_empty_retried (maxR : Nat) (h1 : 1 ≤ maxR) :
    run_with_retries (fun _ => .returns (finishNormal [])) maxR =
      (exhaustResult maxR (some "No items collected"),
       (List.range (maxR - 1)).map (fun j => 2 ^ j), maxR) := by
  have hfail : ∀ i, 1 ≤ i → i ≤ maxR →
      isFailure ((fun _ => Attempt.returns (finishNormal [])) i) :=
    fun _ _ _ => rfl
  have h := rwrAux_exhaust (fun _ => .returns (finishNormal [])) maxR hfail maxR 1 none
    (by omega) h1 (by omega)
  rw [run_with_retries, h]
  have hmsg : failMsg ((fun _ => Attempt.returns (finishNormal [])) maxR) =
      "No items collected" := rfl
  rw [hmsg]
  refine congrArg₂ Prod.mk rfl (congrArg₂ Prod.mk ?_ (by omega))
  refine List.map_congr_left fun j _ => ?_
  congr 1
  omega

/-- Witness for C1: the amended behaviour at max_retries = 2. -/
theorem C1_witness :
    run_with_retries (fun _ => .returns (finishNormal [])) 2 =
      (exhaustResult 2 (some "No items collected"), [1], 2) := by
  have h := C1_amended_clean_empty_retried 2 (by omega)
  exact h.trans (by decide)

/-! ### Image and condition extraction claims -/

theorem containsSub_append_left (p q : List Char) :
    ∀ cs, containsSub (p ++ q) cs = true → containsSub p cs = true := by
  intro cs
  induction cs with
  | nil =>
    intro h
    simp only [containsSub, List.isEmpty_iff, List.append_eq_nil] at h
    simp [containsSub, h.1]
  | cons c cs ih =>
    intro h
    simp only [containsSub, Bool.or_eq_true] at h ⊢
    rcases h with h | h
    · exact Or.inl (isPrefixOf_append_left p q _ h)
    · exact Or.inr (ih h)

theorem strContains_s_l50_of_s_l500 (src : String)
    (h : strContains "s-l500" src = true) : strContains "s-l50" src = true := by
  unfold strContains at h ⊢
  rw [show "s-l500".toList = "s-l50".toList ++ ['0'] from rfl] at h
  exact containsSub_append_left _ _ _ h

/-- Claim C8 (code bug): any image URL containing the low-resolution
token "s-l500" also contains the thumbnail token "s-l50" as a substring,
so the thumbnail rejection fires first and the selector falls through:
the "s-l500" to "s-l1600" upgrade branch is unreachable and such a URL is
never accepted. -/
theorem C8_s_l500_never_upgraded (src : String) (rest : List (Option String))
    (h : strContains "s-l500" src = true) :
    extractImage (some src :: rest) = extractImage rest := by
  have h50 : strContains "s-l50" src = true := strContains_s_l50_of_s_l500 src h
  by_cases he : src = ""
  · simp [extractImage, he]
  · simp [extractImage, he, h50]

/-- Witness for C8: the code drops a concrete s-l500 image URL entirely
instead of upgrading it to s-l1600. -/
theorem C8_witness :
    extractImage [some "https://i.ebayimg.com/images/g/x/s-l500.jpg"] = none :=
  (C8_s_l500_never_upgraded "https://i.ebayimg.com/images/g/x/s-l500.jpg" []
    (by decide)).trans rfl

/-- Counterexample to C9: condition text containing no condition-related
keyword is still returned as the item condition: no allow-list validation
exists in the extraction. -/
theorem C9_counterexample :
    extractCondition [some "Gorgeous blue widget"] = some "Gorgeous blue widget" ∧
    strContains "new" (pyLower "Gorgeous blue widget") = false ∧
    strContains "used" (pyLower "Gorgeous blue widget") = false ∧
    strContains "refurbished" (pyLower "Gorgeous blue widget") = false ∧
    strContains "open" (pyLower "Gorgeous blue widget") = false ∧
    strContains "sealed" (pyLower "Gorgeous blue widget") = false ∧
    strContains "parts" (pyLower "Gorgeous blue widget") = false ∧
    strContains "pre-owned" (pyLower "Gorgeous blue widget") = false ∧
    strContains "condition" (pyLower "Gorgeous blue widget") = false := by
  decide

/-- Claim C9 amended: extracted condition text is accepted without any
keyword validation: the first non-empty text yielded by the ordered
condition locators is returned, stripped, as the item condition. -/
theorem C9_amended_no_validation (pre : List (Option String)) (s : String)
    (rest : List (Option String))
    (hpre : ∀ t ∈ pre, t = none ∨ t = some "") (hs : s ≠ "") :
    extractCondition (pre ++ some s :: rest) = some (pyStrip s) := by
  induction pre with
  | nil => simp [extractCondition, hs]
  | cons t pre ih =>
    have hrest : ∀ x ∈ pre, x = none ∨ x = some "" :=
      fun x hx => hpre x (List.mem_cons_of_mem t hx)
    rcases hpre t (List.mem_cons_self t pre) with h | h <;> subst h
    · exact ih hrest
    · simpa [extractCondition] using ih hrest

/-- Witness for C9: earlier empty selectors are skipped and the first
non-empty text is returned stripped. -/
theorem C9_witness :
    extractCondition [none, some "", some " Brand New ", some "x"] =
      some "Brand New" := by
  have h := C9_amended_no_validation [none, some ""] " Brand New " [some "x"]
    (by decide) (by decide)
  exact h.trans (by decide)

/-- Claim C10: a candidate whose detail-page condition text is non-empty
and lacks the substring "new" (case-insensitive) is skipped with no item
appended, while a candidate whose detail-page condition is missing or
empty is kept and contributes exactly one item (for a fresh candidate
whose page opens, navigates, and raises no exception). -/
theorem C10_non_new_skipped (usdRate : ℚ) (st : RState)
    (cd : Candidate × DetailOutcome)
    (hseen : canonicalize cd.1.url ∉ st.seen)
    (hfatal : cd.2.newPageFatal = none)
    (hnav : cd.2.navOk = true)
    (hthrow : cd.2.throws = false) :
    (∀ c, cd.2.condition = some c → c ≠ "" →
      strContains "new" (pyLower c) = false →
      stepCandidate usdRate st cd =
        .inr (⟨st.items, canonicalize cd.1.url :: st.seen,
               st.visits ++ [canonicalize cd.1.url]⟩, true)) ∧
    ((cd.2.condition = none ∨ cd.2.condition = some "") →
      stepCandidate usdRate st cd =
        .inr (⟨st.items ++ [mkSoldItem usdRate (canonicalize cd.1.url) cd],
               canonicalize cd.1.url :: st.seen,
               st.visits ++ [canonicalize cd.1.url]⟩, true)) := by
  constructor
  · intro c hc hne hnew
    have hskip : skipNonNew cd.2.condition = true := by
      rw [hc]
      simp [skipNonNew, hne, hnew]
    simp [stepCandidate, hseen, hfatal, hnav, hthrow, hskip]
  · intro hc
    have hskip : skipNonNew cd.2.condition = false := by
      rcases hc with hc | hc <;> rw [hc] <;> simp [skipNonNew]
    simp [stepCandidate, hseen, hfatal, hnav, hthrow, hskip]

/-- Witness for C10: a fresh candidate whose visited page shows "Used" is
skipped and appends nothing. -/
theorem C10_witness :
    stepCandidate 1 ⟨[], [], []⟩ cdUsed =
      .inr (⟨[], [canonicalize cdUsed.1.url], [canonicalize cdUsed.1.url]⟩, true) :=
  (C10_non_new_skipped 1 ⟨[], [], []⟩ cdUsed (by decide) rfl rfl rfl).1
    "Used" rfl (by decide) (by decide)

/-- Witness for C7 at a concrete protocol-relative URL with a query
string. -/
theorem C7_witness :
    '\n' ∉ "//www.ebay.co.uk/itm/123?hash=7".toList ∧
    (canonicalize (canonicalize "//www.ebay.co.uk/itm/123?hash=7") =
        canonicalize "//www.ebay.co.uk/itm/123?hash=7" ∧
      '?' ∉ (canonicalize "//www.ebay.co.uk/itm/123?hash=7").toList ∧
      ("http".toList).isPrefixOf
        (canonicalize "//www.ebay.co.uk/itm/123?hash=7").toList = true) :=
  ⟨by decide, C7_canonicalize_idempotent "//www.ebay.co.uk/itm/123?hash=7" (by decide)⟩

/-! ### Run loop invariants -/

theorem finalState_eq (usdRate : ℚ) (pp : Nat) (world : List Page) :
    finalState usdRate pp world = resState (runCore usdRate pp world).1 := by
  unfold finalState resState
  cases (runCore usdRate pp world).1 with
  | inl f => rfl
  | inr st => rfl

theorem runModel_items (usdRate : ℚ) (pp : Nat) (world : List Page) :
    (runModel usdRate pp world).items = (finalState usdRate pp world).items := by
  unfold runModel finalState
  cases (runCore usdRate pp world).1 with
  | inl f => simp [finishFatal]
  | inr st => simp [finishNormal]

/-- Exhaustive case split of one candidate step: skip an already-seen
canonical URL outright, abort fatally before the visit, or visit with at
most one item appended (whose URL is the canonical URL). -/
theorem stepCandidate_cases (usdRate : ℚ) (st : RState) (cd : Candidate × DetailOutcome) :
    (stepCandidate usdRate st cd = .inr (st, false) ∧ canonicalize cd.1.url ∈ st.seen) ∨
    (canonicalize cd.1.url ∉ st.seen ∧
      ((∃ m, stepCandidate usdRate st cd =
          .inl (m, ⟨st.items, canonicalize cd.1.url :: st.seen, st.visits⟩)) ∨
       (∃ itOpt, stepCandidate usdRate st cd =
          .inr (⟨st.items ++ itOpt, canonicalize cd.1.url :: st.seen,
                 st.visits ++ [canonicalize cd.1.url]⟩, true) ∧
          (itOpt = [] ∨
            itOpt = [mkSoldItem usdRate (canonicalize cd.1.url) cd])))) := by
  by_cases hm : canonicalize cd.1.url ∈ st.seen
  · left
    exact ⟨by simp [stepCandidate, hm], hm⟩
  · right
    refine ⟨hm, ?_⟩
    cases hf : cd.2.newPageFatal with
    | some m =>
      left
      exact ⟨m, by simp [stepCandidate, hm, hf]⟩
    | none =>
      right
      by_cases hnav : cd.2.navOk = true
      case neg =>
        rw [Bool.not_eq_true] at hnav
        refine ⟨[], ?_, Or.inl rfl⟩
        simp [stepCandidate, hm, hf, hnav]
      case pos =>
        by_cases hth : cd.2.throws = true
        · refine ⟨[], ?_, Or.inl rfl⟩
          simp [stepCandidate, hm, hf, hnav, hth]
        · rw [Bool.not_eq_true] at hth
          by_cases hsk : skipNonNew cd.2.condition = true
          · refine ⟨[], ?_, Or.inl rfl⟩
            simp [stepCandidate, hm, hf, hnav, hth, hsk]
          · rw [Bool.not_eq_true] at hsk
            refine ⟨[mkSoldItem usdRate (canonicalize cd.1.url) cd], ?_, Or.inr rfl⟩
            simp [stepCandidate, hm, hf, hnav, hth, hsk]

theorem RInv_seen_grow {st : RState} (c : String) (hinv : RInv st) :
    RInv ⟨st.items, c :: st.seen, st.visits⟩ := by
  obtain ⟨hi, hv, hni, hnv⟩ := hinv
  exact ⟨fun u hu => List.mem_cons_of_mem _ (hi u hu),
    fun u hu => List.mem_cons_of_mem _ (hv u hu), hni, hnv⟩

theorem RInv_extend {st : RState} (clean : String) (itOpt : List SoldItem)
    (hinv : RInv st) (hm : clean ∉ st.seen)
    (hopt : itOpt = [] ∨ ∃ it, itOpt = [it] ∧ it.url = clean) :
    RInv ⟨st.items ++ itOpt, clean :: st.seen, st.visits ++ [clean]⟩ := by
  obtain ⟨hi, hv, hni, hnv⟩ := hinv
  have hvis : (st.visits ++ [clean]).Nodup := by
    rw [List.nodup_append]
    refine ⟨hnv, List.nodup_singleton clean, ?_⟩
    intro a ha hax
    rw [List.mem_singleton] at hax
    subst hax
    exact hm (hv a ha)
  have hvismem : ∀ u ∈ st.visits ++ [clean], u ∈ clean :: st.seen := by
    intro u hu
    rcases List.mem_append.mp hu with hu | hu
    · exact List.mem_cons_of_mem _ (hv u hu)
    · rw [List.mem_singleton] at hu
      subst hu
      exact List.mem_cons_self _ _
  rcases hopt with rfl | ⟨it, rfl, hurl⟩
  · refine ⟨?_, hvismem, ?_, hvis⟩
    · intro u hu
      rw [List.append_nil] at hu
      exact List.mem_cons_of_mem _ (hi u hu)
    · rw [List.append_nil]
      exact hni
  · refine ⟨?_, hvismem, ?_, hvis⟩
    · intro u hu
      rw [List.map_append] at hu
      rcases List.mem_append.mp hu with hu | hu
      · exact List.mem_cons_of_mem _ (hi u hu)
      · simp only [List.map_cons, List.map_nil, List.mem_singleton] at hu
        subst hu
        rw [hurl]
        exact List.mem_cons_self _ _
    · rw [List.map_append]
      rw [List.nodup_append]
      refine ⟨hni, ?_, ?_⟩
      · simp
      · intro a ha hax
        simp only [List.map_cons, List.map_nil, List.mem_singleton] at hax
        subst hax
        rw [hurl] at ha
        exact hm (hi clean ha)

/-- The facts the candidate loop maintains: the invariant, the per-run
item cap, and a visit count bounded by the number of candidates handed
to it. -/
theorem runCands_facts (usdRate : ℚ) (pp : Nat) :
    ∀ (cs : List (Candidate × DetailOutcome)) (st : RState), RInv st →
      RInv (resState (runCands usdRate pp st cs).1) ∧
      (st.items.length ≤ pp →
        (resState (runCands usdRate pp st cs).1).items.length ≤ pp) ∧
      (runCands usdRate pp st cs).2 ≤ cs.length := by
  intro cs
  induction cs with
  | nil =>
    intro st hinv
    exact ⟨hinv, fun h => h, Nat.le_refl 0⟩
  | cons cd rest ih =>
    intro st hinv
    by_cases hcap : pp ≤ st.items.length
    · refine ⟨?_, ?_, ?_⟩
      · simpa [runCands, hcap, resState] using hinv
      · intro h
        simpa [runCands, hcap, resState] using h
      · simp [runCands, hcap]
    · rcases stepCandidate_cases usdRate st cd with ⟨heq, _⟩ | ⟨hm, hcase⟩
      · have hr := ih st hinv
        refine ⟨?_, ?_, ?_⟩
        · simpa [runCands, hcap, heq] using hr.1
        · intro h
          simpa [runCands, hcap, heq] using hr.2.1 h
        · have := hr.2.2
          simp only [runCands, hcap, if_false, heq]
          simpa using Nat.le_succ_of_le this
      · rcases hcase with ⟨m, heq⟩ | ⟨itOpt, heq, hopt⟩
        · refine ⟨?_, ?_, ?_⟩
          · simpa [runCands, hcap, heq, resState] using RInv_seen_grow _ hinv
          · intro h
            simpa [runCands, hcap, heq, resState] using h
          · simp [runCands, hcap, heq]
        · have hopt' : itOpt = [] ∨
              ∃ it, itOpt = [it] ∧ it.url = canonicalize cd.1.url := by
            rcases hopt with rfl | rfl
            · exact Or.inl rfl
            · exact Or.inr ⟨_, rfl, rfl⟩
          have hinv2 : RInv ⟨st.items ++ itOpt, canonicalize cd.1.url :: st.seen,
              st.visits ++ [canonicalize cd.1.url]⟩ :=
            RInv_extend (canonicalize cd.1.url) itOpt hinv hm hopt'
          have hlen1 : itOpt.length ≤ 1 := by
            rcases hopt with rfl | rfl <;> simp
          have hr := ih ⟨st.items ++ itOpt, canonicalize cd.1.url :: st.seen,
              st.visits ++ [canonicalize cd.1.url]⟩ hinv2
          refine ⟨?_, ?_, ?_⟩
          · simpa [runCands, hcap, heq] using hr.1
          · intro _
            have hst2 : (st.items ++ itOpt).length ≤ pp := by
              rw [List.length_append]
              omega
            simpa [runCands, hcap, heq] using hr.2.1 hst2
          · have hc := hr.2.2
            simp only [runCands, hcap, if_false, heq, List.length_cons]
            simp only [if_true]
            omega

/-- The facts the page loop maintains: the invariant, the per-run item
cap, and a visit count of at most 5 on every page. -/
theorem runPages_facts (usdRate : ℚ) (pp : Nat) :
    ∀ (world : List Page) (st : RState), RInv st →
      RInv (resState (runPages usdRate pp st world).1) ∧
      (st.items.length ≤ pp →
        (resState (runPages usdRate pp st world).1).items.length ≤ pp) ∧
      (∀ n ∈ (runPages usdRate pp st world).2, n ≤ 5) := by
  intro world
  induction world with
  | nil =>
    intro st hinv
    exact ⟨hinv, fun h => h, by simp [runPages]⟩
  | cons pg rest ih =>
    intro st hinv
    by_cases hcap : pp ≤ st.items.length
    · refine ⟨?_, ?_, ?_⟩
      · simpa [runPages, hcap, resState] using hinv
      · intro h
        simpa [runPages, hcap, resState] using h
      · simp [runPages, hcap]
    · have hc := runCands_facts usdRate pp (pg.take (min 5 (pp - st.items.length))) st hinv
      have hslice : (pg.take (min 5 (pp - st.items.length))).length ≤ 5 := by
        rw [List.length_take]
        omega
      cases hres : runCands usdRate pp st (pg.take (min 5 (pp - st.items.length))) with
      | mk res n =>
        have hn5 : n ≤ 5 := by
          have := hc.2.2
          rw [hres] at this
          exact le_trans this hslice
        cases res with
        | inl f =>
          refine ⟨?_, ?_, ?_⟩
          · have := hc.1
            rw [hres] at this
            simpa [runPages, hcap, hres] using this
          · intro h
            have := hc.2.1 (le_of_lt (lt_of_not_le hcap))
            rw [hres] at this
            simpa [runPages, hcap, hres] using this
          · intro x hx
            simp only [runPages, hcap, if_false, hres, List.mem_singleton] at hx
            subst hx
            exact hn5
        | inr st' =>
          have hinv' : RInv st' := by
            have := hc.1
            rw [hres] at this
            exact this
          have hlen' : st'.items.length ≤ pp := by
            have := hc.2.1 (le_of_lt (lt_of_not_le hcap))
            rw [hres] at this
            exact this
          have hr := ih st' hinv'
          refine ⟨?_, ?_, ?_⟩
          · simpa [runPages, hcap, hres] using hr.1
          · intro _
            simpa [runPages, hcap, hres] using hr.2.1 hlen'
          · intro x hx
            simp only [runPages, hcap, if_false, hres, List.mem_cons] at hx
            rcases hx with rfl | hx
            · exact hn5
            · exact hr.2.2 x hx

/-- Claim C5: a single run never returns more than per_page items, and
every listing page visits at most the fixed ceiling of 5 candidate
detail pages even when more candidates exist. -/
theorem C5_per_page_caps (usdRate : ℚ) (pp : Nat) (world : List Page) :
    (runModel usdRate pp world).items.length ≤ pp ∧
    ∀ n ∈ visitCounts usdRate pp world, n ≤ 5 := by
  have h0 : RInv ⟨[], [], []⟩ :=
    ⟨by simp, by simp, List.nodup_nil, List.nodup_nil⟩
  have h := runPages_facts usdRate pp world ⟨[], [], []⟩ h0
  constructor
  · rw [runModel_items, finalState_eq]
    exact h.2.1 (by simp)
  · exact h.2.2

/-- Claim C6: within a single run no two collected items share a
canonical URL, no canonical URL is ever visited twice, and a candidate
whose canonical URL is already in the seen set is skipped outright with
the state unchanged and no visit. -/
theorem C6_dedup (usdRate : ℚ) (pp : Nat) (world : List Page) :
    ((runModel usdRate pp world).items.map SoldItem.url).Nodup ∧
    (finalState usdRate pp world).visits.Nodup ∧
    (∀ st cd, canonicalize (Prod.fst cd).url ∈ st.seen →
      stepCandidate usdRate st cd = .inr (st, false)) := by
  have h0 : RInv ⟨[], [], []⟩ :=
    ⟨by simp, by simp, List.nodup_nil, List.nodup_nil⟩
  have h := (runPages_facts usdRate pp world ⟨[], [], []⟩ h0).1
  refine ⟨?_, ?_, ?_⟩
  · rw [runModel_items, finalState_eq]
    exact h.2.2.1
  · rw [finalState_eq]
    exact h.2.2.2
  · intro st cd hmem
    simp [stepCandidate, hmem]

/-- Claim C2 amended: `count` always equals the length of `items` and
`error` is populated exactly when `success` is false; `success = true`
implies at least one item; on the normal exit path `success = true` holds
if and only if at least one item was collected; on the top-level fatal
exit path partial items already collected are still returned but
`success` is false even when items were collected. -/
theorem C2_run_result_invariants (usdRate : ℚ) (pp : Nat) (world : List Page) :
    (runModel usdRate pp world).count = (runModel usdRate pp world).items.length ∧
    ((runModel usdRate pp world).error = none ↔
      (runModel usdRate pp world).success = true) ∧
    ((runModel usdRate pp world).success = true →
      0 < (runModel usdRate pp world).items.length) ∧
    (∀ st, (runCore usdRate pp world).1 = .inr st →
      ((runModel usdRate pp world).success = true ↔
        0 < (runModel usdRate pp world).items.length)) ∧
    (∀ m st, (runCore usdRate pp world).1 = .inl (m, st) →
      (runModel usdRate pp world).success = false ∧
      (runModel usdRate pp world).items = st.items) := by
  cases h : (runCore usdRate pp world).1 with
  | inl f =>
    obtain ⟨m, st⟩ := f
    have hm : runModel usdRate pp world = finishFatal m st.items := by
      unfold runModel
      rw [h]
    rw [hm]
    refine ⟨rfl, by simp [finishFatal], by simp [finishFatal], ?_, ?_⟩
    · intro st' h'
      cases h'
    · intro m' st' h'
      injection h' with h''
      injection h'' with h1 h2
      subst h2
      exact ⟨rfl, rfl⟩
  | inr st =>
    have hm : runModel usdRate pp world = finishNormal st.items := by
      unfold runModel
      rw [h]
    rw [hm]
    by_cases hit : 0 < st.items.length
    · refine ⟨rfl, ?_, ?_, ?_, ?_⟩
      · simp [finishNormal, hit]
      · intro _
        simpa [finishNormal] using hit
      · intro st' h'
        simp [finishNormal, hit]
      · intro m' st' h'
        cases h'
    · refine ⟨rfl, ?_, ?_, ?_, ?_⟩
      · simp [finishNormal, hit]
      · intro hcontr
        simp [finishNormal, hit] at hcontr
      · intro st' h'
        simp [finishNormal, hit]
      · intro m' st' h'
        cases h'

/-- Counterexample to C2: on the fatal exit path the run returns the one
partial item already collected with count = 1, yet success is false,
contradicting success = true iff at least one item was collected. -/
theorem C2_counterexample :
    (runModel 1 5 worldC2).success = false ∧
    (runModel 1 5 worldC2).count = 1 ∧
    (runModel 1 5 worldC2).items.length = 1 := by
  decide

/-- Witness for C2: the invariants evaluated on a concrete normal run. -/
theorem C2_witness :
    (runModel 1 5 worldOne).count = (runModel 1 5 worldOne).items.length ∧
    ((runModel 1 5 worldOne).success = true ↔
      0 < (runModel 1 5 worldOne).items.length) :=
  ⟨(C2_run_result_invariants 1 5 worldOne).1,
   (C2_run_result_invariants 1 5 worldOne).2.2.2.1 stOne (by decide)⟩

/-- Witness for C5: with per_page 5 and 8 candidates on the page, at most
5 items come back and the page performs exactly 5 visits, within the
ceiling. -/
theorem C5_witness :
    (runModel 1 5 world8).items.length ≤ 5 ∧
    5 ∈ visitCounts 1 5 world8 ∧ 5 ≤ 5 :=
  ⟨(C5_per_page_caps 1 5 world8).1, by decide,
   (C5_per_page_caps 1 5 world8).2 5 (by decide)⟩

/-- Witness for C6: a candidate with an already-seen canonical URL is
skipped without a visit, and the duplicate-bearing world yields no
duplicate item URLs. -/
theorem C6_witness :
    ((runModel 1 5 [[mkCand "https://www.ebay.co.uk/itm/1", cdDup]]).items.map
      SoldItem.url).Nodup ∧
    stepCandidate 1 stSeen cdDup = .inr (stSeen, false) :=
  ⟨(C6_dedup 1 5 [[mkCand "https://www.ebay.co.uk/itm/1", cdDup]]).1,
   (C6_dedup 1 5 []).2.2 stSeen cdDup (by decide)⟩

end EbayScraper
